import Mathlib

/-!
Verification of the ECP5 SPI-flash programming applet
(`software/glasgow/applet/program_ecp5/__init__.py`).

The development shallowly embeds the applet's pure core:

* the bit codecs `_bitarray` and `_hex_to_bitarray` (built on the
  `bitarray` library with little-endian bit order: `frombytes`,
  `reverse`, `bytereverse`, `tobytes`), as functions on `List Bool`;
* the `_command` SPI transceiver as a function producing the two DR
  shift buffers and the decoded response;
* the status-register helpers (`write_in_progress`, the `protect`
  branch of `interact`) as functions on `Nat` status bytes;
* the bulk operations `program`, `erase_program`, the chunked read
  loop `_read_command`, and the `verify` branch of `interact`, as
  functions producing a trace of observable events (SPI commands
  issued and progress callbacks invoked).

Byte strings are `List Nat` with every element below 256; the flash
contents are a function `Nat → Nat` from addresses to bytes.
-/

set_option maxRecDepth 16384

namespace ECP5

/-- The eight bits of a byte, least significant first
(little-endian `bitarray.frombytes` of a single byte). -/
def byteToBits (b : Nat) : List Bool :=
  (List.range 8).map fun i => b.testBit i

/-- Value of a group of bits read least significant bit first
(little-endian `bitarray.tobytes` of a single group). -/
def bitsToByte (l : List Bool) : Nat :=
  l.foldr (fun b acc => (if b then 1 else 0) + 2 * acc) 0

/-- `bitarray.frombytes`: concatenate the bits of every byte. -/
def frombytes (B : List Nat) : List Bool := B.flatMap byteToBits

/-- Split a bit sequence into aligned groups of eight bits
(the byte granularity used by `bytereverse` and `tobytes`). -/
def chunks8 : List Bool → List (List Bool)
  | b0 :: b1 :: b2 :: b3 :: b4 :: b5 :: b6 :: b7 :: rest =>
      [b0, b1, b2, b3, b4, b5, b6, b7] :: chunks8 rest
  | [] => []
  | l => [l]

/-- `bitarray.bytereverse`: reverse the bit order inside each byte. -/
def bytereverse (l : List Bool) : List Bool := (chunks8 l).flatMap List.reverse

/-- `bitarray.tobytes`: turn the bit sequence back into bytes. -/
def tobytes (l : List Bool) : List Nat := (chunks8 l).map bitsToByte

/-- The applet's `_hex_to_bitarray` (instruction-direction codec),
at the byte level: `frombytes`, then `reverse`, then `bytereverse`.
The hexadecimal-string front end of the Python function decodes the
nibble string back to exactly the input bytes, so it is the identity
at this level. -/
def hexToBitarray (B : List Nat) : List Bool :=
  bytereverse (frombytes B).reverse

/-- The applet's `_bitarray` (command-direction codec): `frombytes`,
then `bytereverse`; the `bits.reverse()` step is commented out in the
source. -/
def bitarrayEnc (B : List Nat) : List Bool :=
  bytereverse (frombytes B)

/-- The decoding step at the end of `_command`:
`value.reverse(); value.bytereverse(); value.tobytes()`. -/
def commandDecode (l : List Bool) : List Nat :=
  tobytes (bytereverse l.reverse)

/-- Bit-reversal of a single byte. -/
def bitrev8 (b : Nat) : Nat := bitsToByte (byteToBits b).reverse

/-- Status bit masks from the applet source. -/
def BIT_WIP : Nat := 0b00000001

/-- Write-enable-latch mask. -/
def BIT_WEL : Nat := 0b00000010

/-- Block-protect field mask (bits 2 to 5). -/
def MSK_PROT : Nat := 0b00111100

/-- `write_in_progress`: given the status bytes returned by the first
`read_status` and by the re-read (consulted only when the first shows
WEL set and WIP clear), the outcome together with the number of status
reads performed.  The error payload models
`ProgramECP5Error(command + " command failed (status ...)")` as the
command name together with the offending status byte. -/
def write_in_progress {α : Type} (command : α) (s1 s2 : Nat) :
    Except (α × Nat) Bool × Nat :=
  if (s1 &&& BIT_WEL) != 0 && (s1 &&& BIT_WIP) == 0 then
    if (s2 &&& BIT_WEL) != 0 && (s2 &&& BIT_WIP) == 0 then
      (Except.error (command, s2), 2)
    else
      (Except.ok ((s2 &&& BIT_WIP) != 0), 2)
  else
    (Except.ok ((s1 &&& BIT_WIP) != 0), 1)

/-- Python `a & ~m` on nonnegative integers: clear in `a` every bit set
in `m`.  Since the set bits of `a &&& m` are a subset of the set bits
of `a`, this is the exclusive or below. -/
def andNot (a m : Nat) : Nat := a ^^^ (a &&& m)

/-- The `protect` set branch of `interact`:
`status = (status & ~MSK_PROT) | ((bits << 2) & MSK_PROT)`. -/
def protectSet (status bits : Nat) : Nat :=
  andNot status MSK_PROT ||| ((bits <<< 2) &&& MSK_PROT)

/-- The `protect` query branch of `interact`: `(status & MSK_PROT) >> 2`. -/
def protectQuery (status : Nat) : Nat := (status &&& MSK_PROT) >>> 2

/-- Outcome of the `verify` subcommand. -/
inductive VerifyResult
  | pass
  | fail (addr expected actual : Nat)
  | stuck
deriving DecidableEq

/-- First differing pair in `zip gold flash` with its offset, mirroring
`for offset, (gold_byte, flash_byte) in enumerate(zip(...))` with a
`break` at the first mismatch. -/
def firstDiff : List Nat → List Nat → Option (Nat × Nat × Nat)
  | g :: gs, f :: fs =>
      if g ≠ f then some (0, g, f)
      else (firstDiff gs fs).map fun x => (x.1 + 1, x.2)
  | _, _ => none

/-- The `verify` branch of `interact`: succeed silently when the data
read back equals the expected data; otherwise report the absolute
address of the first differing byte with both byte values and fail.
`stuck` models the `NameError` the Python code would hit if the two
strings differed while every zipped pair matched (unreachable when the
lengths are equal). -/
def verifyCheck (address : Nat) (gold flash : List Nat) : VerifyResult :=
  if gold = flash then .pass
  else
    match firstDiff gold flash with
    | some x => .fail (address + x.1) x.2.1 x.2.2
    | none => .stuck

/-- `_command`: the two DR shift buffers (one `_sdr_array` call each)
and the decoded response.  `tdo` is the JTAG transport: the bits
captured while a buffer is shifted (`shift_tdio`).  The first buffer
is the opcode, the argument bytes and `dummy` zero bytes, hex-formatted
and encoded with `_bitarray`; the bits captured during that shift are
discarded (the source overwrites `value`).  The second buffer is `ret`
zero bytes encoded the same way, and the bits captured during that
second shift, decoded with reverse-then-bytereverse, are the returned
response. -/
def command (tdo : List Bool → List Bool) (cmd : Nat) (arg : List Nat)
    (dummy ret : Nat) : List (List Bool) × List Nat :=
  let xmit1 := bitarrayEnc (cmd :: arg ++ List.replicate dummy 0)
  let xmit2 := bitarrayEnc (List.replicate ret 0)
  ([xmit1, xmit2], commandDecode (tdo xmit2))

/-- Progress-callback status text, by constructor rather than by
formatted string. -/
inductive Status
  | readingAddress (addr : Nat)
  | programmingPage (addr : Nat)
  | erasingSector (addr : Nat)
deriving DecidableEq

/-- Observable events: SPI commands issued and progress callbacks
invoked (`callback done total status`). -/
inductive Ev
  | writeEnable
  | pageProgram (addr : Nat) (data : List Nat)
  | sectorErase (addr : Nat)
  | readCmd (addr len : Nat)
  | callback (done total : Nat) (status : Option Status)
deriving DecidableEq

/-- The loop of `program(address, data, page_size, callback)`:
while data remains, slice `chunk = data[:page_size - address % page_size]`,
invoke the callback with the cumulative count, write-enable and
page-program the chunk, advance; afterwards invoke the callback once
more with `status = None`. -/
def programLoop : Nat → Nat → List Nat → Nat → Nat → Nat → List Ev
  | 0, _, _, _, _, _ => []
  | fuel + 1, address, data, pageSize, done, total =>
    if data.length = 0 then [Ev.callback done total none]
    else
      let chunk := data.take (pageSize - address % pageSize)
      Ev.callback done total (some (Status.programmingPage address)) ::
      Ev.writeEnable ::
      Ev.pageProgram address chunk ::
      programLoop fuel (address + chunk.length) (data.drop chunk.length) pageSize
        (done + chunk.length) total

/-- `program(address, data, page_size)` with `done, total = 0, len(data)`. -/
def program (address : Nat) (data : List Nat) (pageSize : Nat) : List Ev :=
  programLoop (data.length + 1) address data pageSize 0 data.length

/-- The iteration schedule shared by `program` (page granularity) and
`erase_program` (sector granularity): per iteration, the current
address, the chunk `data[:size - address % size]`, and the cumulative
byte count before the iteration. -/
def chunkSchedule : Nat → Nat → List Nat → Nat → Nat → List (Nat × List Nat × Nat)
  | 0, _, _, _, _ => []
  | fuel + 1, address, data, sz, done =>
    if data.length = 0 then []
    else
      let chunk := data.take (sz - address % sz)
      (address, chunk, done) ::
        chunkSchedule fuel (address + chunk.length) (data.drop chunk.length) sz
          (done + chunk.length)

/-- Prefix sums: the cumulative totals before each element. -/
def prefixSums (start : Nat) : List Nat → List Nat
  | [] => []
  | n :: ns => start :: prefixSums (start + n) ns

/-- The page-program calls in an event trace: address and data of each. -/
def pageChunks (evs : List Ev) : List (Nat × List Nat) :=
  evs.filterMap fun e =>
    match e with
    | Ev.pageProgram a c => some (a, c)
    | _ => none

/-- The progress-callback invocations in an event trace. -/
def callbackEvents (evs : List Ev) : List (Nat × Nat × Option Status) :=
  evs.filterMap fun e =>
    match e with
    | Ev.callback d t st => some (d, t, st)
    | _ => none

/-- Recognizer for the completion callback (`status = None`). -/
def isCompletionCallback : Ev → Bool
  | Ev.callback _ _ none => true
  | _ => false

/-- The loop of `_read_command(address, length, chunk_size, cmd)` with
the default chunk size 255 (`chunk_size = None` becomes `0xff`): issue
chunked reads of `ret = min(0xff, length - len(data))` bytes, advance
the address, and collect the returned bytes.  A read command at address
`a` for `n` bytes returns `flash a, …, flash (a + n - 1)`.  The
per-chunk progress callback is the default no-op in every call made by
`erase_program` and is not an observable event. -/
def readLoop (flash : Nat → Nat) : Nat → Nat → Nat → List Ev × List Nat
  | 0, _, _ => ([], [])
  | fuel + 1, address, remaining =>
    if remaining = 0 then ([], [])
    else
      let n := min 255 remaining
      let r := readLoop flash fuel (address + n) (remaining - n)
      (Ev.readCmd address n :: r.1,
       ((List.range n).map fun i => flash (address + i)) ++ r.2)

/-- `read(address, length)` with the default chunk size: a fuel of
`length` steps always suffices since every chunk is nonempty. -/
def readCommand (flash : Nat → Nat) (address length' : Nat) : List Ev × List Nat :=
  readLoop flash length' address length'

/-- Slice assignment `base[off : off + len(chunk)] = chunk` on a
bytearray whose slice has exactly the chunk's length. -/
def spliceList (base : List Nat) (off : Nat) (chunk : List Nat) : List Nat :=
  base.take off ++ chunk ++ base.drop (off + chunk.length)

/-- The nested progress callback `erase_program` passes to `program`:
`lambda page_done, page_total, status: callback(done + page_done, total,
status)`. -/
def offsetCallbacks (done total : Nat) : Ev → Ev
  | Ev.callback d _ st => Ev.callback (done + d) total st
  | e => e

/-- The skip test `re.match(rb"^\xff*$", sector_data)`: in Python's
default mode `$` matches at the end of the data or just before one
trailing newline, so the pattern matches exactly the images made of
`0xFF` bytes optionally followed by a single final newline byte
`0x0A`. -/
def matchesAllFFRegex (l : List Nat) : Bool :=
  l.all (fun b => b == 255) ||
    (l.getLast? == some 10 && l.dropLast.all (fun b => b == 255))

/-- The loop of `erase_program(address, data, sector_size, page_size,
callback)`: while data remains, slice a chunk up to the next sector
boundary, compute `sector_start = address & ~(sector_size - 1)`, take
the chunk itself as the sector image when it exactly covers an aligned
sector and otherwise splice it at `address % sector_size` into a full
readback of the existing sector, then callback, write-enable,
sector-erase, and, unless the image matches `re.match(rb"^\xff*$",
sector_data)` (all `0xFF`, optionally with one trailing `0x0A`),
program the image with the offset nested callback; afterwards invoke
the callback once more with `status = None`. -/
def eraseProgramLoop (flash : Nat → Nat) :
    Nat → Nat → List Nat → Nat → Nat → Nat → Nat → List Ev
  | 0, _, _, _, _, _, _ => []
  | fuel + 1, address, data, sectorSize, pageSize, done, total =>
    if data.length = 0 then [Ev.callback done total none]
    else
      let chunk := data.take (sectorSize - address % sectorSize)
      let sectorStart := andNot address (sectorSize - 1)
      let sectorData :=
        if address % sectorSize = 0 ∧ chunk.length = sectorSize then chunk
        else spliceList (readCommand flash sectorStart sectorSize).2
          (address % sectorSize) chunk
      (if address % sectorSize = 0 ∧ chunk.length = sectorSize then []
       else (readCommand flash sectorStart sectorSize).1) ++
      Ev.callback done total (some (Status.erasingSector sectorStart)) ::
      Ev.writeEnable ::
      Ev.sectorErase sectorStart ::
      ((if matchesAllFFRegex sectorData then []
        else (program sectorStart sectorData pageSize).map
          (offsetCallbacks done total)) ++
       eraseProgramLoop flash fuel (address + chunk.length) (data.drop chunk.length)
         sectorSize pageSize (done + chunk.length) total)

/-- `erase_program(address, data, sector_size, page_size)` with
`done, total = 0, len(data)`. -/
def eraseProgram (flash : Nat → Nat) (address : Nat) (data : List Nat)
    (sectorSize pageSize : Nat) : List Ev :=
  eraseProgramLoop flash (data.length + 1) address data sectorSize pageSize 0
    data.length

/-- One iteration body of `erase_program` at `it = (address, chunk,
done)`: the events it emits, in source order. -/
def sectorBlock (flash : Nat → Nat) (sectorSize pageSize total : Nat)
    (it : Nat × List Nat × Nat) : List Ev :=
  let sectorStart := andNot it.1 (sectorSize - 1)
  let sectorData :=
    if it.1 % sectorSize = 0 ∧ it.2.1.length = sectorSize then it.2.1
    else spliceList (readCommand flash sectorStart sectorSize).2
      (it.1 % sectorSize) it.2.1
  (if it.1 % sectorSize = 0 ∧ it.2.1.length = sectorSize then []
   else (readCommand flash sectorStart sectorSize).1) ++
  Ev.callback it.2.2 total (some (Status.erasingSector sectorStart)) ::
  Ev.writeEnable ::
  Ev.sectorErase sectorStart ::
  (if matchesAllFFRegex sectorData then []
   else (program sectorStart sectorData pageSize).map
     (offsetCallbacks it.2.2 total))

/-- Number of sectors of size `sz` overlapping the byte range
`[address, address + n)`. -/
def touchedSectors (address n sz : Nat) : Nat :=
  if n = 0 then 0 else (address + n - 1) / sz - address / sz + 1

/-- Recognizer for sector-erase commands. -/
def isSectorErase : Ev → Bool
  | Ev.sectorErase _ => true
  | _ => false

/-- The iteration body of `erase_program`, written the way the
specification words it for the power-of-two sector sizes it has in
mind: the containing sector's base address is
`address - address % sector_size`, and the merged image splices the
chunk at `address % sector_size` into a full readback
`flash[sector_start], …, flash[sector_start + sector_size - 1]` of the
existing sector.  Compared against `sectorBlock`, the body derived from
the source. -/
def sectorBlockSpec (flash : Nat → Nat) (sectorSize pageSize total : Nat)
    (it : Nat × List Nat × Nat) : List Ev :=
  let sectorStart := it.1 - it.1 % sectorSize
  let sectorImage := (List.range sectorSize).map fun i => flash (sectorStart + i)
  let sectorData :=
    if it.1 % sectorSize = 0 ∧ it.2.1.length = sectorSize then it.2.1
    else spliceList sectorImage (it.1 % sectorSize) it.2.1
  (if it.1 % sectorSize = 0 ∧ it.2.1.length = sectorSize then []
   else (readCommand flash sectorStart sectorSize).1) ++
  Ev.callback it.2.2 total (some (Status.erasingSector sectorStart)) ::
  Ev.writeEnable ::
  Ev.sectorErase sectorStart ::
  (if matchesAllFFRegex sectorData then []
   else (program sectorStart sectorData pageSize).map
     (offsetCallbacks it.2.2 total))

theorem chunks8_byte (b : Nat) (rest : List Bool) :
    chunks8 (byteToBits b ++ rest) = byteToBits b :: chunks8 rest := rfl

theorem chunks8_byteRev (b : Nat) (rest : List Bool) :
    chunks8 ((byteToBits b).reverse ++ rest) = (byteToBits b).reverse :: chunks8 rest := rfl

theorem flatMap_reverse (f : Nat → List Bool) (B : List Nat) :
    (B.flatMap f).reverse = B.reverse.flatMap fun b => (f b).reverse := by
  induction B with
  | nil => rfl
  | cons b B ih =>
      simp [List.flatMap_cons, List.flatMap_append, List.reverse_append, ih]

theorem bytereverse_flatMap (B : List Nat) :
    bytereverse (B.flatMap byteToBits) = B.flatMap fun b => (byteToBits b).reverse := by
  induction B with
  | nil => rfl
  | cons b B ih =>
      simp only [List.flatMap_cons]
      rw [bytereverse, chunks8_byte, List.flatMap_cons]
      rw [bytereverse] at ih
      rw [ih]

theorem bytereverse_flatMapRev (B : List Nat) :
    bytereverse (B.flatMap fun b => (byteToBits b).reverse) = B.flatMap byteToBits := by
  induction B with
  | nil => rfl
  | cons b B ih =>
      simp only [List.flatMap_cons]
      rw [bytereverse, chunks8_byteRev, List.flatMap_cons, List.reverse_reverse]
      rw [bytereverse] at ih
      rw [ih]

theorem tobytes_flatMap (B : List Nat) :
    tobytes (B.flatMap byteToBits) = B.map fun b => bitsToByte (byteToBits b) := by
  induction B with
  | nil => rfl
  | cons b B ih =>
      simp only [List.flatMap_cons]
      rw [tobytes, chunks8_byte, List.map_cons]
      rw [tobytes] at ih
      rw [ih, List.map_cons]

theorem tobytes_flatMapRev (B : List Nat) :
    tobytes (B.flatMap fun b => (byteToBits b).reverse) = B.map bitrev8 := by
  induction B with
  | nil => rfl
  | cons b B ih =>
      simp only [List.flatMap_cons]
      rw [tobytes, chunks8_byteRev, List.map_cons]
      rw [tobytes] at ih
      rw [ih]
      rfl

theorem byte_roundtrip : ∀ b, b < 256 → bitsToByte (byteToBits b) = b := by decide

/-- Claim C1, counterexample: for the command-direction codec (encode
via `_bitarray`, decode via the reverse-then-bytereverse step in
`_command`) the round trip fails already on the single-byte string
`01`: it decodes to `80`, the bit-reversed byte, because `_bitarray`
omits the whole-sequence bit reversal that the decoder undoes. -/
theorem C1_commandCodec_roundtrip_fails :
    commandDecode (bitarrayEnc [1]) ≠ [1] := by decide

/-- Claim C1, amended: the round trip holds for the
instruction-direction codec: decoding with the reverse-then-bytereverse
convention of `_command` recovers every byte string encoded with
`_hex_to_bitarray`.  For the command-direction codec (`_bitarray`, whose
bit reversal is commented out) the same decoder instead returns the
input with byte order reversed and each byte bit-reversed, so that
round trip fails except on bit-palindromic byte palindromes. -/
theorem C1_codec_roundtrip (B : List Nat) (h : ∀ b ∈ B, b < 256) :
    commandDecode (hexToBitarray B) = B ∧
    commandDecode (bitarrayEnc B) = (B.map bitrev8).reverse := by
  constructor
  · rw [commandDecode, hexToBitarray, frombytes, flatMap_reverse, bytereverse_flatMapRev,
      flatMap_reverse, List.reverse_reverse, bytereverse_flatMapRev, tobytes_flatMap]
    have : B.map (fun b => bitsToByte (byteToBits b)) = B.map id := by
      apply List.map_congr_left
      intro b hb
      exact byte_roundtrip b (h b hb)
    rw [this, List.map_id]
  · rw [commandDecode, bitarrayEnc, frombytes, bytereverse_flatMap, flatMap_reverse]
    have : (B.reverse.flatMap fun b => ((byteToBits b).reverse).reverse)
        = B.reverse.flatMap byteToBits := by
      simp [List.reverse_reverse]
    rw [this, bytereverse_flatMap, tobytes_flatMapRev, List.map_reverse]

/-- Claim C1 witness: instantiate the amended round trip at the byte
string `01 02`. -/
theorem C1_codec_roundtrip_witness :
    (∀ b ∈ [1, 2], b < 256) ∧
      (commandDecode (hexToBitarray [1, 2]) = [1, 2] ∧
       commandDecode (bitarrayEnc [1, 2]) = (([1, 2].map bitrev8)).reverse) :=
  ⟨by decide, C1_codec_roundtrip [1, 2] (by decide)⟩

/-- Claim C5: `write_in_progress` raises the command-named error if and
only if both consecutive status reads show WEL set and WIP clear; in
every other case it returns the WIP bit of the last status read,
re-reading exactly once more when the first read shows WEL set and WIP
clear. -/
theorem C5_write_in_progress {α : Type} (command : α) (s1 s2 : Nat) :
    (((write_in_progress command s1 s2).1 = Except.error (command, s2)) ↔
      (((s1 &&& BIT_WEL) != 0 && (s1 &&& BIT_WIP) == 0) = true ∧
       ((s2 &&& BIT_WEL) != 0 && (s2 &&& BIT_WIP) == 0) = true)) ∧
    (((s1 &&& BIT_WEL) != 0 && (s1 &&& BIT_WIP) == 0) = true →
      (write_in_progress command s1 s2).2 = 2 ∧
      (((s2 &&& BIT_WEL) != 0 && (s2 &&& BIT_WIP) == 0) = false →
        (write_in_progress command s1 s2).1 = Except.ok ((s2 &&& BIT_WIP) != 0))) ∧
    (((s1 &&& BIT_WEL) != 0 && (s1 &&& BIT_WIP) == 0) = false →
      (write_in_progress command s1 s2).2 = 1 ∧
      (write_in_progress command s1 s2).1 = Except.ok ((s1 &&& BIT_WIP) != 0)) := by
  by_cases h1 : ((s1 &&& BIT_WEL) != 0 && (s1 &&& BIT_WIP) == 0) = true <;>
    by_cases h2 : ((s2 &&& BIT_WEL) != 0 && (s2 &&& BIT_WIP) == 0) = true <;>
    simp [write_in_progress, h1, h2]

/-- Claim C5 witness: two consecutive reads of status `0b10` (WEL set,
WIP clear) make the poll fail with the command name (here the command
name is abstracted to the tag 9). -/
theorem C5_write_in_progress_witness :
    (((2 &&& BIT_WEL) != 0 && ((2 : Nat) &&& BIT_WIP) == 0) = true ∧
     ((2 &&& BIT_WEL) != 0 && ((2 : Nat) &&& BIT_WIP) == 0) = true) ∧
    (write_in_progress (9 : Nat) 2 2).1 = Except.error (9, 2) :=
  ⟨⟨by decide, by decide⟩,
   (C5_write_in_progress (9 : Nat) 2 2).1.mpr ⟨by decide, by decide⟩⟩

theorem andNot_testBit (a m i : Nat) :
    (andNot a m).testBit i = (a.testBit i && !(m.testBit i)) := by
  rw [andNot, Nat.testBit_xor, Nat.testBit_land]
  cases a.testBit i <;> cases m.testBit i <;> rfl

/-- Claim C9: writing status `protectSet s b` puts the 4-bit value `b`
into the protect field (bits 2 to 5) while every bit outside that field
keeps the value read in `s`, and a subsequent query extracts exactly
`b` back out of the status register. -/
theorem C9_protect (s b : Nat) (hs : s < 256) (hb : b < 16) :
    protectQuery (protectSet s b) = b ∧
    ∀ i, ¬(2 ≤ i ∧ i ≤ 5) → (protectSet s b).testBit i = s.testBit i := by
  constructor
  · have key : ∀ s, s < 256 → ∀ b, b < 16 → protectQuery (protectSet s b) = b := by decide
    exact key s hs b hb
  · intro i hi
    rcases Nat.lt_or_ge i 8 with h8 | h8
    · have key : ∀ s, s < 256 → ∀ b, b < 16 → ∀ i, i < 8 → ¬(2 ≤ i ∧ i ≤ 5) →
          (protectSet s b).testBit i = s.testBit i := by decide
      exact key s hs b hb i h8 hi
    · have hbound : (256 : Nat) ≤ 2 ^ i := by
        have : (2 : Nat) ^ 8 ≤ 2 ^ i := Nat.pow_le_pow_right (by norm_num) h8
        simpa using this
      have hlt : protectSet s b < 256 := by
        have key : ∀ s, s < 256 → ∀ b, b < 16 → protectSet s b < 256 := by decide
        exact key s hs b hb
      rw [Nat.testBit_lt_two_pow (lt_of_lt_of_le hlt hbound),
        Nat.testBit_lt_two_pow (lt_of_lt_of_le hs hbound)]

/-- Claim C9 witness: setting protect bits `0b1010` on status
`0b11000011` queries back `0b1010` and leaves the other bits alone. -/
theorem C9_protect_witness :
    (195 : Nat) < 256 ∧ (10 : Nat) < 16 ∧
    (protectQuery (protectSet 195 10) = 10 ∧
     ∀ i, ¬(2 ≤ i ∧ i ≤ 5) → (protectSet 195 10).testBit i = (195 : Nat).testBit i) :=
  ⟨by decide, by decide, C9_protect 195 10 (by decide) (by decide)⟩

theorem firstDiff_spec : ∀ gold flash : List Nat,
    gold.length = flash.length → gold ≠ flash →
    ∃ i g f, firstDiff gold flash = some (i, g, f) ∧ i < gold.length ∧
      gold.getD i 0 = g ∧ flash.getD i 0 = f ∧ g ≠ f ∧
      ∀ j, j < i → gold.getD j 0 = flash.getD j 0
  | [], [], _, hne => absurd rfl hne
  | g :: gs, f :: fs, hlen, hne => by
    by_cases hgf : g = f
    · subst hgf
      have htail : gs ≠ fs := by
        intro hEq
        exact hne (by rw [hEq])
      obtain ⟨i, g0, f0, hfd, hi, hg, hf, hne0, hmin⟩ :=
        firstDiff_spec gs fs (by simpa using hlen) htail
      refine ⟨i + 1, g0, f0, ?_, by simpa using Nat.succ_lt_succ hi, ?_, ?_, hne0, ?_⟩
      · simp [firstDiff, hfd]
      · simpa using hg
      · simpa using hf
      · intro j hj
        cases j with
        | zero => rfl
        | succ j => exact hmin j (Nat.lt_of_succ_lt_succ hj)
    · exact ⟨0, g, f, by simp [firstDiff, hgf], Nat.succ_pos _, rfl, rfl, hgf,
        fun j hj => absurd hj (Nat.not_lt_zero j)⟩

/-- Claim C6: for equal-length expected and actual data, `verify`
passes exactly when they are equal byte-for-byte; otherwise it fails
reporting the absolute address `base + offset` of the first differing
byte, together with the expected and actual byte values there. -/
theorem C6_verify (address : Nat) (gold flash : List Nat)
    (h : gold.length = flash.length) :
    (gold = flash → verifyCheck address gold flash = .pass) ∧
    (gold ≠ flash → ∃ i, i < gold.length ∧
      (∀ j, j < i → gold.getD j 0 = flash.getD j 0) ∧
      gold.getD i 0 ≠ flash.getD i 0 ∧
      verifyCheck address gold flash =
        .fail (address + i) (gold.getD i 0) (flash.getD i 0)) := by
  constructor
  · intro hEq
    simp [verifyCheck, hEq]
  · intro hne
    obtain ⟨i, g, f, hfd, hi, hg, hf, hne0, hmin⟩ := firstDiff_spec gold flash h hne
    refine ⟨i, hi, hmin, by rw [hg, hf]; exact hne0, ?_⟩
    rw [hg, hf]
    simp [verifyCheck, hne, hfd]

/-- Claim C6 witness: data `01 02 03` against flash contents `01 05 03`
fails at offset 1 with both byte values; first the length hypothesis,
then the instantiated conclusion. -/
theorem C6_verify_witness :
    ([1, 2, 3] : List Nat).length = ([1, 5, 3] : List Nat).length ∧
    (([1, 2, 3] : List Nat) = [1, 5, 3] →
        verifyCheck 10 [1, 2, 3] [1, 5, 3] = .pass) ∧
    (([1, 2, 3] : List Nat) ≠ [1, 5, 3] → ∃ i, i < ([1, 2, 3] : List Nat).length ∧
      (∀ j, j < i →
        ([1, 2, 3] : List Nat).getD j 0 = ([1, 5, 3] : List Nat).getD j 0) ∧
      ([1, 2, 3] : List Nat).getD i 0 ≠ ([1, 5, 3] : List Nat).getD i 0 ∧
      verifyCheck 10 [1, 2, 3] [1, 5, 3] =
        .fail (10 + i) (([1, 2, 3] : List Nat).getD i 0)
          (([1, 5, 3] : List Nat).getD i 0)) :=
  ⟨rfl, C6_verify 10 [1, 2, 3] [1, 5, 3] rfl⟩

/-! ### The SPI transceiver `_command` -/

theorem bytereverse_cons8 (b0 b1 b2 b3 b4 b5 b6 b7 : Bool) (rest : List Bool) :
    bytereverse (b0 :: b1 :: b2 :: b3 :: b4 :: b5 :: b6 :: b7 :: rest)
      = [b7, b6, b5, b4, b3, b2, b1, b0] ++ bytereverse rest := rfl

theorem chunks8_cons8 (b0 b1 b2 b3 b4 b5 b6 b7 : Bool) (rest : List Bool) :
    chunks8 (b0 :: b1 :: b2 :: b3 :: b4 :: b5 :: b6 :: b7 :: rest)
      = [b0, b1, b2, b3, b4, b5, b6, b7] :: chunks8 rest := rfl

theorem length_bytereverse : ∀ l : List Bool, (bytereverse l).length = l.length
  | [] => rfl
  | [_] => rfl
  | [_, _] => rfl
  | [_, _, _] => rfl
  | [_, _, _, _] => rfl
  | [_, _, _, _, _] => rfl
  | [_, _, _, _, _, _] => rfl
  | [_, _, _, _, _, _, _] => rfl
  | b0 :: b1 :: b2 :: b3 :: b4 :: b5 :: b6 :: b7 :: rest => by
      have ih := length_bytereverse rest
      rw [bytereverse_cons8, List.length_append, ih]
      simp only [List.length_cons, List.length_nil]
      omega

theorem length_chunks8 : ∀ l : List Bool, (chunks8 l).length = (l.length + 7) / 8
  | [] => rfl
  | [_] => by
      show 1 = (1 + 7) / 8
      rfl
  | [_, _] => by
      show 1 = (2 + 7) / 8
      rfl
  | [_, _, _] => by
      show 1 = (3 + 7) / 8
      rfl
  | [_, _, _, _] => by
      show 1 = (4 + 7) / 8
      rfl
  | [_, _, _, _, _] => by
      show 1 = (5 + 7) / 8
      rfl
  | [_, _, _, _, _, _] => by
      show 1 = (6 + 7) / 8
      rfl
  | [_, _, _, _, _, _, _] => by
      show 1 = (7 + 7) / 8
      rfl
  | b0 :: b1 :: b2 :: b3 :: b4 :: b5 :: b6 :: b7 :: rest => by
      have ih := length_chunks8 rest
      rw [chunks8_cons8]
      simp only [List.length_cons, List.length_nil]
      rw [ih]
      omega

theorem length_flatMap8 (f : Nat → List Bool) (hf : ∀ b, (f b).length = 8)
    (B : List Nat) : (B.flatMap f).length = 8 * B.length := by
  induction B with
  | nil => rfl
  | cons b B ih =>
      simp only [List.flatMap_cons, List.length_append, List.length_cons, ih, hf]
      omega

theorem length_bitarrayEnc (B : List Nat) :
    (bitarrayEnc B).length = 8 * B.length := by
  rw [bitarrayEnc, frombytes, bytereverse_flatMap]
  refine length_flatMap8 _ (fun b => ?_) B
  simp [byteToBits]

theorem length_commandDecode (l : List Bool) :
    (commandDecode l).length = (l.length + 7) / 8 := by
  rw [commandDecode, tobytes, List.length_map, length_chunks8, length_bytereverse,
    List.length_reverse]

/-- Claim C7: every `_command` call performs exactly two DR shift
cycles and no partial shifts: the first shifts the opcode, argument
bytes and `dummy` zero bytes as one encoded buffer, the second shifts
`ret` zero bytes, both buffers hold a whole number of bytes, and the
bits captured during the second shift, decoded, are the returned
response of exactly `ret` bytes (given a transport that captures as
many bits as it shifts). -/
theorem C7_command (tdo : List Bool → List Bool) (cmd : Nat) (arg : List Nat)
    (dummy ret : Nat) (htdo : ∀ bs, (tdo bs).length = bs.length) :
    (command tdo cmd arg dummy ret).1 =
      [bitarrayEnc (cmd :: arg ++ List.replicate dummy 0),
       bitarrayEnc (List.replicate ret 0)] ∧
    (command tdo cmd arg dummy ret).1.length = 2 ∧
    (∀ b ∈ (command tdo cmd arg dummy ret).1, b.length % 8 = 0) ∧
    (command tdo cmd arg dummy ret).2 =
      commandDecode (tdo (bitarrayEnc (List.replicate ret 0))) ∧
    (command tdo cmd arg dummy ret).2.length = ret := by
  refine ⟨rfl, rfl, ?_, rfl, ?_⟩
  · intro b hb
    have hl : (command tdo cmd arg dummy ret).1 =
        [bitarrayEnc (cmd :: arg ++ List.replicate dummy 0),
         bitarrayEnc (List.replicate ret 0)] := rfl
    rw [hl] at hb
    simp only [List.mem_cons, List.not_mem_nil, or_false] at hb
    rcases hb with rfl | rfl
    · rw [length_bitarrayEnc]
      omega
    · rw [length_bitarrayEnc]
      omega
  · show (commandDecode (tdo (bitarrayEnc (List.replicate ret 0)))).length = ret
    rw [length_commandDecode, htdo, length_bitarrayEnc, List.length_replicate]
    omega

/-- Claim C7 witness: the RDID command (opcode `9F`, three response
bytes) through an identity transport gives a 3-byte response and the
two expected shift buffers. -/
theorem C7_command_witness :
    (∀ bs : List Bool, (id bs).length = bs.length) ∧
    ((command id 159 [] 0 3).1 =
      [bitarrayEnc (159 :: [] ++ List.replicate 0 0),
       bitarrayEnc (List.replicate 3 0)] ∧
     (command id 159 [] 0 3).1.length = 2 ∧
     (∀ b ∈ (command id 159 [] 0 3).1, b.length % 8 = 0) ∧
     (command id 159 [] 0 3).2 =
       commandDecode (id (bitarrayEnc (List.replicate 3 0))) ∧
     (command id 159 [] 0 3).2.length = 3) :=
  ⟨fun _ => rfl, C7_command id 159 [] 0 3 (fun _ => rfl)⟩

theorem programLoop_structure (pageSize : Nat) (hps : 1 ≤ pageSize) :
    ∀ (fuel address : Nat) (data : List Nat) (done total : Nat),
      data.length < fuel →
      programLoop fuel address data pageSize done total =
        (chunkSchedule fuel address data pageSize done).flatMap
          (fun it => [Ev.callback it.2.2 total (some (Status.programmingPage it.1)),
                      Ev.writeEnable, Ev.pageProgram it.1 it.2.1])
        ++ [Ev.callback (done + data.length) total none] := by
  intro fuel
  induction fuel with
  | zero => intro address data done total h; omega
  | succ fuel ih =>
      intro address data done total h
      by_cases hd : data.length = 0
      · simp [programLoop, chunkSchedule, hd]
      · have hchunk : 1 ≤ (data.take (pageSize - address % pageSize)).length := by
          rw [List.length_take]
          have hmod : address % pageSize < pageSize := Nat.mod_lt _ (by omega)
          omega
        have hlen : (data.take (pageSize - address % pageSize)).length ≤ data.length := by
          rw [List.length_take]; omega
        have hdrop : (data.drop (data.take (pageSize - address % pageSize)).length).length
            < fuel := by
          rw [List.length_drop]; omega
        simp only [programLoop, chunkSchedule, if_neg hd]
        rw [ih _ _ _ _ hdrop]
        simp only [List.flatMap_cons, List.cons_append, List.nil_append,
          List.append_assoc, List.length_drop]
        have : done + (data.take (pageSize - address % pageSize)).length
            + (data.length - (data.take (pageSize - address % pageSize)).length)
            = done + data.length := by omega
        rw [this]

theorem program_structure (address : Nat) (data : List Nat) (pageSize : Nat)
    (hps : 1 ≤ pageSize) :
    program address data pageSize =
      (chunkSchedule (data.length + 1) address data pageSize 0).flatMap
        (fun it => [Ev.callback it.2.2 data.length
                      (some (Status.programmingPage it.1)),
                    Ev.writeEnable, Ev.pageProgram it.1 it.2.1])
      ++ [Ev.callback data.length data.length none] := by
  have h := programLoop_structure pageSize hps (data.length + 1) address data 0
    data.length (by omega)
  rw [program, h, Nat.zero_add]

/-- Claim C10: `program` on an empty byte string issues no write-enable
and no page-program command, and invokes the progress callback exactly
once, with `done = 0`, `total = 0` and `status = None`. -/
theorem C10_program_empty (address pageSize : Nat) (hps : 1 ≤ pageSize) :
    program address [] pageSize = [Ev.callback 0 0 none] ∧
    Ev.writeEnable ∉ program address [] pageSize ∧
    (∀ a c, Ev.pageProgram a c ∉ program address [] pageSize) := by
  have h : program address [] pageSize = [Ev.callback 0 0 none] := rfl
  refine ⟨h, ?_, ?_⟩
  · simp [h]
  · intro a c
    simp [h]

/-- Claim C10 witness: address 7, page size 1. -/
theorem C10_program_empty_witness :
    1 ≤ 1 ∧
    (program 7 [] 1 = [Ev.callback 0 0 none] ∧
     Ev.writeEnable ∉ program 7 [] 1 ∧
     (∀ a c, Ev.pageProgram a c ∉ program 7 [] 1)) :=
  ⟨by decide, C10_program_empty 7 1 (by decide)⟩

theorem chunkSchedule_nil_of (fuel address : Nat) (data : List Nat) (sz done : Nat)
    (hd : data.length = 0) : chunkSchedule fuel address data sz done = [] := by
  cases fuel <;> simp [chunkSchedule, hd]

theorem chunkSchedule_mem (sz : Nat) (hsz : 1 ≤ sz) :
    ∀ (fuel address : Nat) (data : List Nat) (done : Nat),
      ∀ it ∈ chunkSchedule fuel address data sz done,
        it.2.1 ≠ [] ∧ it.1 % sz + it.2.1.length ≤ sz := by
  intro fuel
  induction fuel with
  | zero =>
      intro address data done it hit
      simp [chunkSchedule] at hit
  | succ fuel ih =>
      intro address data done it hit
      by_cases hd : data.length = 0
      · rw [chunkSchedule_nil_of _ _ _ _ _ hd] at hit
        simp at hit
      · simp only [chunkSchedule, if_neg hd, List.mem_cons] at hit
        rcases hit with rfl | hit
        · have hmod : address % sz < sz := Nat.mod_lt _ (by omega)
          have hlen : (data.take (sz - address % sz)).length
              = min (sz - address % sz) data.length := List.length_take _ _
          dsimp only
          constructor
          · intro hEq
            rw [hEq] at hlen
            simp only [List.length_nil] at hlen
            omega
          · omega
        · exact ih _ _ _ it hit

theorem chunkSchedule_head (fuel address : Nat) (data : List Nat) (sz done : Nat)
    (hd : data.length ≠ 0) (hfuel : 0 < fuel) :
    (chunkSchedule fuel address data sz done).head? =
      some (address, data.take (sz - address % sz), done) := by
  cases fuel with
  | zero => omega
  | succ fuel =>
      simp only [chunkSchedule]
      rw [if_neg hd]
      rfl

theorem chunkSchedule_aligned_dropLast (sz : Nat) (hsz : 1 ≤ sz) :
    ∀ (fuel address : Nat) (data : List Nat) (done : Nat),
      data.length < fuel → address % sz = 0 →
      ∀ it ∈ (chunkSchedule fuel address data sz done).dropLast, it.2.1.length = sz := by
  intro fuel
  induction fuel with
  | zero => intro address data done h; omega
  | succ fuel ih =>
      intro address data done hfuel hal it hit
      by_cases hd : data.length = 0
      · rw [chunkSchedule_nil_of _ _ _ _ _ hd] at hit
        simp at hit
      · simp only [chunkSchedule, if_neg hd] at hit
        rw [hal, Nat.sub_zero] at hit
        set c := data.take sz with hc
        set rest := chunkSchedule fuel (address + c.length) (data.drop c.length) sz
          (done + c.length) with hrest
        by_cases hr : rest = []
        · rw [hr] at hit
          simp at hit
        · have hfull : c.length = sz := by
            have hdrop : (data.drop c.length).length ≠ 0 := by
              intro h0
              exact hr (chunkSchedule_nil_of _ _ _ _ _ h0)
            have h1 : c.length = min sz data.length := by
              rw [hc, List.length_take]
            have h2 : (data.drop c.length).length = data.length - c.length :=
              List.length_drop _ _
            omega
          rw [List.dropLast_cons_of_ne_nil hr, List.mem_cons] at hit
          rcases hit with rfl | hit
          · exact hfull
          · refine ih (address + c.length) (data.drop c.length) (done + c.length) ?_ ?_ it hit
            · rw [List.length_drop]
              have h1 : c.length = min sz data.length := by
                rw [hc, List.length_take]
              omega
            · rw [hfull]
              simp [Nat.add_mod, hal, Nat.mod_self]

theorem chunkSchedule_tail_dropLast (sz : Nat) (hsz : 1 ≤ sz) (fuel address : Nat)
    (data : List Nat) (done : Nat) (hfuel : data.length < fuel) :
    ∀ it ∈ (chunkSchedule fuel address data sz done).tail.dropLast,
      it.2.1.length = sz := by
  cases fuel with
  | zero => omega
  | succ fuel =>
      by_cases hd : data.length = 0
      · rw [chunkSchedule_nil_of _ _ _ _ _ hd]
        intro it hit
        simp at hit
      · simp only [chunkSchedule, if_neg hd, List.tail_cons]
        set c := data.take (sz - address % sz) with hc
        by_cases hd' : (data.drop c.length).length = 0
        · rw [chunkSchedule_nil_of _ _ _ _ _ hd']
          intro it hit
          simp at hit
        · have hmod : address % sz < sz := Nat.mod_lt _ (by omega)
          have hcle : c.length = min (sz - address % sz) data.length := by
            rw [hc, List.length_take]
          have hlt : c.length < data.length := by
            rw [List.length_drop] at hd'
            omega
          have hcfull : c.length = sz - address % sz := by omega
          have hal : (address + c.length) % sz = 0 := by
            have hdm := Nat.div_add_mod address sz
            have hmul : sz * (address / sz + 1) = sz * (address / sz) + sz := by ring
            have haddr : address + c.length = sz * (address / sz + 1) := by omega
            rw [haddr]
            exact Nat.mul_mod_right _ _
          refine chunkSchedule_aligned_dropLast sz hsz fuel (address + c.length)
            (data.drop c.length) (done + c.length) ?_ hal
          rw [List.length_drop]
          omega

theorem chunkSchedule_dones (sz : Nat) :
    ∀ (fuel address : Nat) (data : List Nat) (done : Nat),
      (chunkSchedule fuel address data sz done).map (fun it => it.2.2) =
        prefixSums done
          ((chunkSchedule fuel address data sz done).map fun it => it.2.1.length) := by
  intro fuel
  induction fuel with
  | zero => intro address data done; rfl
  | succ fuel ih =>
      intro address data done
      by_cases hd : data.length = 0
      · simp [chunkSchedule, hd, prefixSums]
      · simp only [chunkSchedule, if_neg hd, List.map_cons, prefixSums]
        rw [ih]

theorem pageChunks_blocks (total : Nat) :
    ∀ S : List (Nat × List Nat × Nat),
      pageChunks ((S.flatMap fun it =>
          [Ev.callback it.2.2 total (some (Status.programmingPage it.1)),
           Ev.writeEnable, Ev.pageProgram it.1 it.2.1])
        ++ [Ev.callback total total none]) = S.map fun it => (it.1, it.2.1) := by
  intro S
  induction S with
  | nil => rfl
  | cons it S ih =>
      simp only [List.flatMap_cons, List.cons_append, List.append_assoc, List.nil_append]
      rw [pageChunks] at ih ⊢
      simp only [List.filterMap_cons] at ih ⊢
      rw [ih]
      rfl

theorem callbackEvents_blocks (total : Nat) :
    ∀ S : List (Nat × List Nat × Nat),
      callbackEvents ((S.flatMap fun it =>
          [Ev.callback it.2.2 total (some (Status.programmingPage it.1)),
           Ev.writeEnable, Ev.pageProgram it.1 it.2.1])
        ++ [Ev.callback total total none])
      = (S.map fun it => (it.2.2, total, some (Status.programmingPage it.1)))
        ++ [(total, total, none)] := by
  intro S
  induction S with
  | nil => rfl
  | cons it S ih =>
      simp only [List.flatMap_cons, List.cons_append, List.append_assoc, List.nil_append]
      rw [callbackEvents] at ih ⊢
      simp only [List.filterMap_cons] at ih ⊢
      rw [ih]
      rfl

theorem countP_completion_blocks (total : Nat) :
    ∀ S : List (Nat × List Nat × Nat),
      ((S.flatMap fun it =>
          [Ev.callback it.2.2 total (some (Status.programmingPage it.1)),
           Ev.writeEnable, Ev.pageProgram it.1 it.2.1])
        ++ [Ev.callback total total none]).countP isCompletionCallback = 1 := by
  intro S
  induction S with
  | nil => rfl
  | cons it S ih =>
      simp only [List.flatMap_cons, List.cons_append, List.append_assoc, List.nil_append]
      rw [List.countP_cons, List.countP_cons, List.countP_cons]
      rw [ih]
      rfl

/-- Claim C4: `program` splits the data so that no page-program call
crosses a page boundary: every chunk is nonempty and satisfies
`address mod page_size + length ≤ page_size`; the first chunk has
length `min (len data) (page_size - address mod page_size)`; and every
chunk other than the first and the last covers a full page. -/
theorem C4_program_chunks (address : Nat) (data : List Nat) (pageSize : Nat)
    (hps : 1 ≤ pageSize) :
    (∀ p ∈ pageChunks (program address data pageSize),
        p.2 ≠ [] ∧ p.1 % pageSize + p.2.length ≤ pageSize) ∧
    (data.length ≠ 0 →
      (pageChunks (program address data pageSize)).head? =
        some (address, data.take (pageSize - address % pageSize)) ∧
      (data.take (pageSize - address % pageSize)).length =
        min data.length (pageSize - address % pageSize)) ∧
    (∀ p ∈ (pageChunks (program address data pageSize)).tail.dropLast,
        p.2.length = pageSize) := by
  have hpc : pageChunks (program address data pageSize) =
      (chunkSchedule (data.length + 1) address data pageSize 0).map
        fun it => (it.1, it.2.1) := by
    rw [program_structure address data pageSize hps]
    exact pageChunks_blocks data.length _
  refine ⟨?_, ?_, ?_⟩
  · intro p hp
    rw [hpc, List.mem_map] at hp
    obtain ⟨it, hit, rfl⟩ := hp
    exact chunkSchedule_mem pageSize hps _ _ _ _ it hit
  · intro hd
    constructor
    · rw [hpc, List.head?_map,
        chunkSchedule_head (data.length + 1) address data pageSize 0 hd (by omega)]
      rfl
    · rw [List.length_take]
      exact Nat.min_comm _ _
  · intro p hp
    rw [hpc, ← List.map_tail, ← List.map_dropLast, List.mem_map] at hp
    obtain ⟨it, hit, rfl⟩ := hp
    exact chunkSchedule_tail_dropLast pageSize hps (data.length + 1) address data 0
      (by omega) it hit

/-- Claim C4 witness: address 3, page size 4, ten data bytes: chunks of
lengths 1, 4, 4, 1, none crossing a page boundary. -/
theorem C4_program_chunks_witness :
    1 ≤ 4 ∧
    ((∀ p ∈ pageChunks (program 3 [1, 2, 3, 4, 5, 6, 7, 8, 9, 10] 4),
        p.2 ≠ [] ∧ p.1 % 4 + p.2.length ≤ 4) ∧
     (([1, 2, 3, 4, 5, 6, 7, 8, 9, 10] : List Nat).length ≠ 0 →
       (pageChunks (program 3 [1, 2, 3, 4, 5, 6, 7, 8, 9, 10] 4)).head? =
         some (3, ([1, 2, 3, 4, 5, 6, 7, 8, 9, 10] : List Nat).take (4 - 3 % 4)) ∧
       (([1, 2, 3, 4, 5, 6, 7, 8, 9, 10] : List Nat).take (4 - 3 % 4)).length =
         min ([1, 2, 3, 4, 5, 6, 7, 8, 9, 10] : List Nat).length (4 - 3 % 4)) ∧
     (∀ p ∈ (pageChunks (program 3 [1, 2, 3, 4, 5, 6, 7, 8, 9, 10] 4)).tail.dropLast,
        p.2.length = 4)) :=
  ⟨by decide, C4_program_chunks 3 [1, 2, 3, 4, 5, 6, 7, 8, 9, 10] 4 (by decide)⟩

/-- Claim C8: `program` invokes the progress callback before each chunk
with the cumulative byte count done so far (the prefix sums of the
chunk lengths starting at 0), and after all chunks invokes it exactly
once more with `done = total = len data` and `status = None`. -/
theorem C8_program_callbacks (address : Nat) (data : List Nat) (pageSize : Nat)
    (hps : 1 ≤ pageSize) :
    callbackEvents (program address data pageSize) =
      ((chunkSchedule (data.length + 1) address data pageSize 0).map
        fun it => (it.2.2, data.length, some (Status.programmingPage it.1)))
      ++ [(data.length, data.length, none)] ∧
    (chunkSchedule (data.length + 1) address data pageSize 0).map (fun it => it.2.2) =
      prefixSums 0
        ((chunkSchedule (data.length + 1) address data pageSize 0).map
          fun it => it.2.1.length) ∧
    (program address data pageSize).countP isCompletionCallback = 1 := by
  refine ⟨?_, chunkSchedule_dones pageSize _ _ _ _, ?_⟩
  · rw [program_structure address data pageSize hps]
    exact callbackEvents_blocks data.length _
  · rw [program_structure address data pageSize hps]
    exact countP_completion_blocks data.length _

/-- Claim C8 witness: programming two bytes at address 3 with page size
4 produces callbacks at 0 then 2, and one completion callback. -/
theorem C8_program_callbacks_witness :
    1 ≤ 4 ∧
    (callbackEvents (program 3 [170, 170] 4) =
      ((chunkSchedule (([170, 170] : List Nat).length + 1) 3 [170, 170] 4 0).map
        fun it => (it.2.2, ([170, 170] : List Nat).length,
          some (Status.programmingPage it.1)))
      ++ [(([170, 170] : List Nat).length, ([170, 170] : List Nat).length, none)] ∧
     (chunkSchedule (([170, 170] : List Nat).length + 1) 3 [170, 170] 4 0).map
        (fun it => it.2.2) =
      prefixSums 0
        ((chunkSchedule (([170, 170] : List Nat).length + 1) 3 [170, 170] 4 0).map
          fun it => it.2.1.length) ∧
     (program 3 [170, 170] 4).countP isCompletionCallback = 1) :=
  ⟨by decide, C8_program_callbacks 3 [170, 170] 4 (by decide)⟩

theorem eraseProgramLoop_structure (flash : Nat → Nat) (sectorSize pageSize : Nat)
    (hss : 1 ≤ sectorSize) :
    ∀ (fuel address : Nat) (data : List Nat) (done total : Nat),
      data.length < fuel →
      eraseProgramLoop flash fuel address data sectorSize pageSize done total =
        (chunkSchedule fuel address data sectorSize done).flatMap
          (sectorBlock flash sectorSize pageSize total)
        ++ [Ev.callback (done + data.length) total none] := by
  intro fuel
  induction fuel with
  | zero => intro address data done total h; omega
  | succ fuel ih =>
      intro address data done total h
      by_cases hd : data.length = 0
      · simp [eraseProgramLoop, chunkSchedule, hd]
      · have hchunk : 1 ≤ (data.take (sectorSize - address % sectorSize)).length := by
          rw [List.length_take]
          have hmod : address % sectorSize < sectorSize := Nat.mod_lt _ (by omega)
          omega
        have hlen : (data.take (sectorSize - address % sectorSize)).length
            ≤ data.length := by
          rw [List.length_take]; omega
        have hdrop :
            (data.drop (data.take (sectorSize - address % sectorSize)).length).length
            < fuel := by
          rw [List.length_drop]; omega
        simp only [eraseProgramLoop, chunkSchedule, if_neg hd]
        rw [ih _ _ _ _ hdrop]
        simp only [List.flatMap_cons, sectorBlock, List.length_drop]
        have hdone : done + (data.take (sectorSize - address % sectorSize)).length
            + (data.length - (data.take (sectorSize - address % sectorSize)).length)
            = done + data.length := by omega
        rw [hdone]
        simp only [List.append_assoc, List.cons_append]

theorem eraseProgram_structure (flash : Nat → Nat) (address : Nat) (data : List Nat)
    (sectorSize pageSize : Nat) (hss : 1 ≤ sectorSize) :
    eraseProgram flash address data sectorSize pageSize =
      (chunkSchedule (data.length + 1) address data sectorSize 0).flatMap
        (sectorBlock flash sectorSize pageSize data.length)
      ++ [Ev.callback data.length data.length none] := by
  have h := eraseProgramLoop_structure flash sectorSize pageSize hss
    (data.length + 1) address data 0 data.length (by omega)
  rw [eraseProgram, h, Nat.zero_add]

theorem readLoop_no_sectorErase (flash : Nat → Nat) :
    ∀ (fuel address remaining : Nat),
      ∀ e ∈ (readLoop flash fuel address remaining).1, isSectorErase e = false := by
  intro fuel
  induction fuel with
  | zero => intro address remaining e he; simp [readLoop] at he
  | succ fuel ih =>
      intro address remaining e he
      by_cases h0 : remaining = 0
      · simp [readLoop, h0] at he
      · simp only [readLoop, if_neg h0, List.mem_cons] at he
        rcases he with rfl | he
        · rfl
        · exact ih _ _ e he

theorem programLoop_no_sectorErase :
    ∀ (fuel address : Nat) (data : List Nat) (pageSize done total : Nat),
      ∀ e ∈ programLoop fuel address data pageSize done total,
        isSectorErase e = false := by
  intro fuel
  induction fuel with
  | zero => intro address data pageSize done total e he; simp [programLoop] at he
  | succ fuel ih =>
      intro address data pageSize done total e he
      by_cases hd : data.length = 0
      · simp only [programLoop, if_pos hd, List.mem_singleton] at he
        subst he; rfl
      · simp only [programLoop, if_neg hd, List.mem_cons] at he
        rcases he with rfl | rfl | rfl | he
        · rfl
        · rfl
        · rfl
        · exact ih _ _ _ _ _ e he

theorem offsetCallbacks_isSectorErase (done total : Nat) (e : Ev) :
    isSectorErase (offsetCallbacks done total e) = isSectorErase e := by
  cases e <;> rfl

theorem no_sectorErase_ite (cond : Prop) [Decidable cond] (evs : List Ev)
    (h : ∀ e ∈ evs, isSectorErase e = false) :
    ∀ e ∈ (if cond then ([] : List Ev) else evs), isSectorErase e = false := by
  intro e he
  split at he
  · simp at he
  · exact h e he

theorem no_sectorErase_progPart (done total start : Nat) (img : List Nat) (ps : Nat) :
    ∀ e ∈ (if matchesAllFFRegex img then ([] : List Ev)
           else (program start img ps).map (offsetCallbacks done total)),
      isSectorErase e = false := by
  refine no_sectorErase_ite _ _ ?_
  intro e he
  rw [List.mem_map] at he
  obtain ⟨e0, he0, rfl⟩ := he
  rw [offsetCallbacks_isSectorErase]
  exact programLoop_no_sectorErase _ _ _ _ _ _ e0 he0

theorem countP_sectorBlock (flash : Nat → Nat) (sectorSize pageSize total : Nat)
    (it : Nat × List Nat × Nat) :
    (sectorBlock flash sectorSize pageSize total it).countP isSectorErase = 1 := by
  have hread : ∀ l : List Ev, (∀ e ∈ l, isSectorErase e = false) →
      l.countP isSectorErase = 0 := by
    intro l hl
    exact List.countP_eq_zero.2 (by simpa using hl)
  rw [sectorBlock]
  simp only [List.countP_append, List.countP_cons]
  rw [hread (if it.1 % sectorSize = 0 ∧ it.2.1.length = sectorSize then []
        else (readCommand flash (andNot it.1 (sectorSize - 1)) sectorSize).1)
      (no_sectorErase_ite _ _ (fun e he => readLoop_no_sectorErase flash _ _ _ e he))]
  rw [hread _ (no_sectorErase_progPart _ _ _ _ _)]
  rfl

theorem countP_flatMap_blocks (p : Ev → Bool) (f : Nat × List Nat × Nat → List Ev)
    (hone : ∀ it, (f it).countP p = 1) :
    ∀ S : List (Nat × List Nat × Nat), (S.flatMap f).countP p = S.length := by
  intro S
  induction S with
  | nil => rfl
  | cons it S ih =>
      rw [List.flatMap_cons, List.countP_append, hone, ih, List.length_cons]
      omega

theorem chunkSchedule_length (sz : Nat) (hsz : 1 ≤ sz) :
    ∀ (fuel address : Nat) (data : List Nat) (done : Nat),
      data.length < fuel →
      (chunkSchedule fuel address data sz done).length =
        touchedSectors address data.length sz := by
  intro fuel
  induction fuel with
  | zero => intro address data done h; omega
  | succ fuel ih =>
      intro address data done hfuel
      by_cases hd : data.length = 0
      · rw [chunkSchedule_nil_of _ _ _ _ _ hd, touchedSectors, if_pos hd]
        rfl
      · simp only [chunkSchedule, if_neg hd, List.length_cons]
        set c := data.take (sz - address % sz) with hc
        have hmod : address % sz < sz := Nat.mod_lt _ (by omega)
        have hclen : c.length = min (sz - address % sz) data.length := by
          rw [hc, List.length_take]
        have hdm := Nat.div_add_mod address sz
        by_cases hshort : data.length ≤ sz - address % sz
        · have hcfull : c.length = data.length := by omega
          have hrest : chunkSchedule fuel (address + c.length)
              (data.drop c.length) sz (done + c.length) = [] := by
            apply chunkSchedule_nil_of
            rw [List.length_drop]
            omega
          rw [hrest]
          rw [touchedSectors, if_neg hd]
          have hdiv : (address + data.length - 1) / sz = address / sz := by
            have hEq : address + data.length - 1
                = address % sz + data.length - 1 + sz * (address / sz) := by omega
            rw [hEq, Nat.add_mul_div_left _ _ (by omega : 0 < sz),
              Nat.div_eq_of_lt (by omega)]
            omega
          rw [hdiv]
          simp
        · have hcfull : c.length = sz - address % sz := by omega
          have hlendrop : (data.drop c.length).length = data.length - c.length :=
            List.length_drop _ _
          have hrest := ih (address + c.length) (data.drop c.length) (done + c.length)
            (by omega)
          rw [hrest, touchedSectors, if_neg (by omega : ¬(data.drop c.length).length = 0),
            touchedSectors, if_neg hd]
          have hmul : sz * (address / sz + 1) = sz * (address / sz) + sz := by ring
          have haddr : address + c.length = sz * (address / sz + 1) := by omega
          have hdivnext : (address + c.length) / sz = address / sz + 1 := by
            rw [haddr, Nat.mul_div_cancel_left _ (by omega : 0 < sz)]
          have harg : address + c.length + (data.drop c.length).length - 1
              = address + data.length - 1 := by omega
          rw [hdivnext, harg]
          have hge : address / sz + 1 ≤ (address + data.length - 1) / sz := by
            rw [Nat.le_div_iff_mul_le (by omega : 0 < sz)]
            have : (address / sz + 1) * sz = sz * (address / sz) + sz := by ring
            omega
          omega

/-- Claim C2, counterexample: the skip guard is
`re.match(rb"^\xff*$", sector_data)`, and `$` also matches just before
a trailing newline, so for the sector image `FF 0A` — which is not all
`0xFF` — the source still skips the programming step: the trace for
`erase_program(0, [0xFF, 0x0A], 2, 2)` erases the sector but contains
no page-program command, refuting the claim's only-if direction. -/
theorem C2_skip_counterexample :
    ([255, 10] : List Nat).all (fun b => b == 255) = false ∧
    eraseProgram (fun _ => 0) 0 [255, 10] 2 2 =
      [Ev.callback 0 2 (some (Status.erasingSector 0)), Ev.writeEnable,
       Ev.sectorErase 0, Ev.callback 2 2 none] ∧
    Ev.pageProgram 0 [255, 10] ∉ eraseProgram (fun _ => 0) 0 [255, 10] 2 2 := by
  decide

/-- Claim C2, amended: `erase_program` unrolls to one `sectorBlock` per
scheduled chunk followed by the completion callback — each block issues
exactly one sector-erase and programs the (possibly merged) sector
image exactly when that image fails the source's
`re.match(rb"^\xff*$", ...)` test, i.e. unless it is all `0xFF` bytes
optionally followed by a single trailing newline byte `0x0A` — and the
number of sector-erase commands issued equals the number of sectors
touched by the written range. -/
theorem C2_erase_program (flash : Nat → Nat) (address : Nat) (data : List Nat)
    (sectorSize pageSize : Nat) (hss : 1 ≤ sectorSize) (hps : 1 ≤ pageSize) :
    eraseProgram flash address data sectorSize pageSize =
      (chunkSchedule (data.length + 1) address data sectorSize 0).flatMap
        (sectorBlock flash sectorSize pageSize data.length)
      ++ [Ev.callback data.length data.length none] ∧
    (eraseProgram flash address data sectorSize pageSize).countP isSectorErase =
      touchedSectors address data.length sectorSize := by
  have hstruct := eraseProgram_structure flash address data sectorSize pageSize hss
  refine ⟨hstruct, ?_⟩
  rw [hstruct, List.countP_append,
    countP_flatMap_blocks isSectorErase _ (countP_sectorBlock flash sectorSize pageSize _),
    chunkSchedule_length sectorSize hss _ _ _ _ (by omega)]
  rfl

/-- Claim C2 witness: three bytes written at address 6 with sector size
4 touch two sectors; the trace unrolls to two sector blocks and two
sector-erase commands. -/
theorem C2_erase_program_witness :
    1 ≤ 4 ∧ 1 ≤ 2 ∧
    (eraseProgram (fun _ => 0) 6 [170, 170, 170] 4 2 =
      (chunkSchedule (([170, 170, 170] : List Nat).length + 1) 6 [170, 170, 170] 4 0).flatMap
        (sectorBlock (fun _ => 0) 4 2 ([170, 170, 170] : List Nat).length)
      ++ [Ev.callback ([170, 170, 170] : List Nat).length
            ([170, 170, 170] : List Nat).length none] ∧
     (eraseProgram (fun _ => 0) 6 [170, 170, 170] 4 2).countP isSectorErase =
       touchedSectors 6 ([170, 170, 170] : List Nat).length 4) :=
  ⟨by decide, by decide,
   C2_erase_program (fun _ => 0) 6 [170, 170, 170] 4 2 (by decide) (by decide)⟩

theorem readLoop_data (flash : Nat → Nat) :
    ∀ (fuel address remaining : Nat), remaining ≤ fuel →
      (readLoop flash fuel address remaining).2 =
        (List.range remaining).map fun i => flash (address + i) := by
  intro fuel
  induction fuel with
  | zero =>
      intro address remaining h
      have h0 : remaining = 0 := by omega
      subst h0
      rfl
  | succ fuel ih =>
      intro address remaining h
      by_cases h0 : remaining = 0
      · subst h0
        rfl
      · simp only [readLoop, if_neg h0]
        have hn : 1 ≤ min 255 remaining := by omega
        rw [ih (address + min 255 remaining) (remaining - min 255 remaining) (by omega)]
        have hsplit : List.range remaining
            = List.range (min 255 remaining)
              ++ (List.range (remaining - min 255 remaining)).map
                  (min 255 remaining + ·) := by
          rw [← List.range_add]
          congr 1
          omega
        rw [hsplit, List.map_append, List.map_map]
        congr 1
        apply List.map_congr_left
        intro i hi
        simp [Function.comp, Nat.add_assoc]

theorem readCommand_data (flash : Nat → Nat) (address len : Nat) :
    (readCommand flash address len).2 =
      (List.range len).map fun i => flash (address + i) :=
  readLoop_data flash len address len (Nat.le_refl len)

theorem andNot_two_pow (a k : Nat) :
    andNot a (2 ^ k - 1) = a - a % 2 ^ k := by
  rw [andNot, Nat.and_pow_two_sub_one_eq_mod]
  apply Nat.eq_of_testBit_eq
  intro i
  have hsub : a - a % 2 ^ k = (a >>> k) <<< k := by
    rw [Nat.shiftLeft_eq, Nat.shiftRight_eq_div_pow]
    have := Nat.div_add_mod a (2 ^ k)
    have hmul : a / 2 ^ k * 2 ^ k = 2 ^ k * (a / 2 ^ k) := by ring
    omega
  rw [hsub, Nat.testBit_xor, Nat.testBit_mod_two_pow, Nat.testBit_shiftLeft,
    Nat.testBit_shiftRight]
  by_cases hik : i < k
  · have hki : ¬ k ≤ i := by omega
    simp [hik, hki, Bool.xor_self]
  · have hki : k ≤ i := by omega
    have hsum : k + (i - k) = i := by omega
    simp [hik, hki, hsum]

theorem sectorBlock_eq_spec (flash : Nat → Nat) (k pageSize total : Nat)
    (it : Nat × List Nat × Nat) :
    sectorBlock flash (2 ^ k) pageSize total it =
      sectorBlockSpec flash (2 ^ k) pageSize total it := by
  rw [sectorBlock, sectorBlockSpec]
  rw [andNot_two_pow, readCommand_data]

/-- Claim C3, counterexample: with the non-power-of-two sector size 3,
writing one byte at address 5 erases at `5 & ~(3 - 1) = 5`, not at the
containing sector's base `5 - 5 % 3 = 3` the claim requires. -/
theorem C3_erase_base_counterexample :
    Ev.sectorErase (5 - 5 % 3) ∉ eraseProgram (fun _ => 0) 5 [0] 3 1 ∧
    Ev.sectorErase 5 ∈ eraseProgram (fun _ => 0) 5 [0] 3 1 := by decide

/-- Claim C3, amended: for power-of-two sector sizes (for which the
source's mask arithmetic `address & ~(sector_size - 1)` computes
`address - address % sector_size`), every chunk of `erase_program`
erases the containing sector at base `address - address % sector_size`,
and when the chunk does not exactly cover a whole aligned sector the
entire existing sector is read back and the chunk is spliced into it at
offset `address % sector_size` before programming, as unrolled by
`sectorBlockSpec`. -/
theorem C3_erase_program_pow2 (flash : Nat → Nat) (address : Nat) (data : List Nat)
    (k pageSize : Nat) :
    eraseProgram flash address data (2 ^ k) pageSize =
      (chunkSchedule (data.length + 1) address data (2 ^ k) 0).flatMap
        (sectorBlockSpec flash (2 ^ k) pageSize data.length)
      ++ [Ev.callback data.length data.length none] := by
  rw [eraseProgram_structure flash address data (2 ^ k) pageSize
    (Nat.one_le_two_pow)]
  congr 1
  apply List.flatMap_congr
  intro it hit
  exact sectorBlock_eq_spec flash k pageSize data.length it

end ECP5
